import Mathlib

/-!
Verification of the PathKit path-splitting utility (`CDeps.cpp`).

The C function `PATPathComponents(path, count, temp)` splits a
null-terminated path into segments.  We embed paths as `List Char`
(the characters before the terminating NUL) and C strings as
`List Char`.  The returned `components` array is modelled as an
`Option (List (List Char))` (`none` for the `NULL` return on empty
input); a segment pointer `components[i] = (*strings)[i].c_str()` is
modelled by the contents of the backing string it points into.  The
out-parameter `*temp` (the heap-allocated `vector<string>`) is modelled
as `Option (List (List Char))`, `none` meaning it was never assigned /
nothing was allocated.
-/

namespace PathKit

/-- The separator test `path[i] == '/'`. -/
def isSep (c : Char) : Bool := c == '/'

/-- The main scanning loop of `PATPathComponents` (lines 32–46):
repeatedly skip a run of `/` characters, stop at end of string,
otherwise collect the maximal run of non-`/` characters as a segment
and continue after it. -/
def scanSegments : List Char → List (List Char)
  | [] => []
  | c :: cs =>
    if isSep c then
      scanSegments cs
    else
      (c :: cs.takeWhile (fun x => !(isSep x))) ::
        scanSegments (cs.dropWhile (fun x => !(isSep x)))
termination_by l => l.length
decreasing_by
  · simp [Nat.lt_succ_iff]
  · exact Nat.lt_succ_of_le (List.dropWhile_sublist _).length_le

/-- The full list of segments pushed onto the `strings` vector for a
path: the leading root marker (lines 29–31), the scanned segments
(lines 32–46), and the trailing root marker (lines 47–49). -/
def segmentsOf (path : List Char) : List (List Char) :=
  (if path.head? = some '/' then [['/']] else [])
    ++ scanSegments path
    ++ (if 1 < path.length ∧ path.getLast? = some '/' then [['/']] else [])

/-- Observable outcome of one call to `PATPathComponents`:
`components` is the returned array (`none` models the `NULL` return),
`count` is the value written through `*count`, `tempOut` is the value
written through `*temp` (`none` models "the out-parameter was never
assigned"), and `allocated` is the heap `vector<string>` the call
allocated, if any (`none` models "no allocation"). -/
structure SplitResult where
  components : Option (List (List Char))
  count : Nat
  tempOut : Option (List (List Char))
  allocated : Option (List (List Char))
deriving DecidableEq

/-- The function `PATPathComponents` (lines 21–56).  On the empty path it writes
`*count = 0` and returns `NULL` (lines 22–25).  Otherwise it allocates
the `strings` vector, fills it (lines 26–49), and builds the
components array by the materialization loop
`components[i] = (*strings)[i].c_str()` (lines 50–53); each component
is modelled by the contents of the backing string it points into.
Nowhere in the function is `*temp` assigned, so `tempOut` is `none` in
every branch. -/
def PATPathComponents (path : List Char) : SplitResult :=
  if path = [] then
    ⟨none, 0, none, none⟩
  else
    let strings := segmentsOf path
    let components := (List.range strings.length).map (fun i => strings.getD i [])
    ⟨some components, strings.length, none, some strings⟩

/-! ### Unfolding lemmas for the scanning loop -/

theorem scan_nil : scanSegments [] = [] := by simp [scanSegments]

theorem scan_sep {c : Char} (cs : List Char) (h : isSep c) :
    scanSegments (c :: cs) = scanSegments cs := by
  rw [scanSegments]; simp [h]

theorem scan_nonsep {c : Char} (cs : List Char) (h : ¬ isSep c) :
    scanSegments (c :: cs) =
      (c :: cs.takeWhile (fun x => !(isSep x))) ::
        scanSegments (cs.dropWhile (fun x => !(isSep x))) := by
  rw [scanSegments]; simp [h]

/-- Every segment produced by the scanning loop is non-empty and
contains no separator characters. -/
theorem scan_mem {l : List Char} {s : List Char} (hs : s ∈ scanSegments l) :
    s ≠ [] ∧ ∀ c ∈ s, ¬ isSep c := by
  induction l using scanSegments.induct with
  | case1 => simp [scan_nil] at hs
  | case2 c cs hc ih =>
    rw [scan_sep cs hc] at hs
    exact ih hs
  | case3 c cs hc ih =>
    rw [scan_nonsep cs hc] at hs
    rcases List.mem_cons.mp hs with h | h
    · subst h
      refine ⟨by simp, ?_⟩
      intro x hx
      rcases List.mem_cons.mp hx with h | h
      · subst h; exact hc
      · have := List.mem_takeWhile_imp h
        simpa using this
    · exact ih h

/-- The scanning loop produces no segments exactly when the path is a
(possibly empty) run of separators. -/
theorem scan_eq_nil_iff (l : List Char) :
    scanSegments l = [] ↔ ∀ c ∈ l, isSep c := by
  induction l using scanSegments.induct with
  | case1 => simp [scan_nil]
  | case2 c cs hc ih =>
    rw [scan_sep cs hc]
    simp [hc, ih]
  | case3 c cs hc ih =>
    rw [scan_nonsep cs hc]
    simp [hc]

/-! ### The scan loop computes the maximal non-separator runs -/

/-- Spec-side formulation: the maximal runs of non-`/` characters of a
path, in order of appearance, are the chunks obtained by splitting at
every separator, with the empty chunks discarded. -/
def maximalRuns (l : List Char) : List (List Char) :=
  (l.splitOnP isSep).filter (fun s => !(s.isEmpty))

theorem splitOnP_eq_takeDrop (p : Char → Bool) (l : List Char) :
    l.splitOnP p = l.takeWhile (fun a => !(p a)) ::
      (match l.dropWhile (fun a => !(p a)) with
       | [] => []
       | _ :: rest => rest.splitOnP p) := by
  induction l with
  | nil => simp
  | cons a t ih =>
    by_cases h : p a
    · simp [List.splitOnP_cons, h, List.takeWhile_cons, List.dropWhile_cons]
    · simp only [List.splitOnP_cons, h, if_neg, Bool.false_eq_true, ite_false, ih,
        List.modifyHead_cons, List.takeWhile_cons, List.dropWhile_cons, Bool.not_false,
        ite_true]

/-- The scanning loop returns exactly the maximal runs of non-separator
characters. -/
theorem scan_eq_maximalRuns (l : List Char) :
    scanSegments l = maximalRuns l := by
  induction l using scanSegments.induct with
  | case1 => simp [scan_nil, maximalRuns]
  | case2 c cs hc ih =>
    rw [scan_sep cs hc, ih]
    simp [maximalRuns, List.splitOnP_cons, hc]
  | case3 c cs hc ih =>
    rw [scan_nonsep cs hc]
    unfold maximalRuns
    rw [List.splitOnP_cons]
    simp only [hc, Bool.false_eq_true, ite_false]
    rw [splitOnP_eq_takeDrop isSep cs, List.modifyHead_cons]
    rw [List.filter_cons]
    simp only [List.isEmpty_cons, Bool.not_false, ite_true]
    congr 1
    rcases hd : cs.dropWhile (fun x => !(isSep x)) with _ | ⟨d, rest⟩
    · simp [hd, scan_nil]
    · have hdsep : isSep d := by
        have := List.head?_dropWhile_not (fun x => !(isSep x)) cs
        rw [hd] at this
        simpa using this
      rw [hd] at ih
      rw [ih]
      simp [maximalRuns, List.splitOnP_cons, hdsep]

/-! ### Basic facts about the returned triple -/

theorem isSep_iff {c : Char} : isSep c = true ↔ c = '/' := by
  simp [isSep]

theorem range_map_getD (strings : List (List Char)) :
    (List.range strings.length).map (fun i => strings.getD i []) = strings := by
  apply List.ext_getElem
  · simp
  · intro i h1 h2
    simp [List.getD_eq_getElem?_getD, List.getElem?_eq_getElem h2]

theorem PAT_ne_nil (path : List Char) (h : path ≠ []) :
    PATPathComponents path =
      ⟨some (segmentsOf path), (segmentsOf path).length, none,
        some (segmentsOf path)⟩ := by
  unfold PATPathComponents
  rw [if_neg h]
  simp only [range_map_getD]

theorem segmentsOf_mem {path s : List Char} (hs : s ∈ segmentsOf path) : s ≠ [] := by
  unfold segmentsOf at hs
  rcases List.mem_append.mp hs with hs | hs
  · rcases List.mem_append.mp hs with hs | hs
    · by_cases hp : path.head? = some '/'
      · have : s = ['/'] := by simpa [hp] using hs
        simp [this]
      · simp [hp] at hs
    · exact (scan_mem hs).1
  · by_cases hp : 1 < path.length ∧ path.getLast? = some '/'
    · have : s = ['/'] := by simpa [hp] using hs
      simp [this]
    · simp [hp] at hs

theorem segmentsOf_ne_nil {path : List Char} (h : path ≠ []) :
    segmentsOf path ≠ [] := by
  obtain ⟨c, cs, rfl⟩ := List.exists_cons_of_ne_nil h
  unfold segmentsOf
  by_cases hc : isSep c
  · have hhd : (c :: cs).head? = some '/' := by
      simp [isSep_iff.mp hc]
    simp [hhd]
  · have hscan : scanSegments (c :: cs) ≠ [] := by
      rw [scan_nonsep cs hc]; simp
    intro hcontra
    rw [List.append_eq_nil, List.append_eq_nil] at hcontra
    exact hscan hcontra.1.2

/-! ### Claim theorems (part 1) -/

/-- C1: refuted by the code.  On the non-empty path `"a"` the call
allocates the backing storage for the returned segment (the `strings`
vector, here holding `["a"]`) and returns a component pointing into
it, yet no statement of `PATPathComponents` ever assigns `*temp`, so
the storage handle that `PATFreePathComponents` needs in order to free
the backing strings is never written through the out-parameter. -/
theorem split_storageHandle_unwritten :
    (PATPathComponents ['a']).components = some [['a']] ∧
    (PATPathComponents ['a']).allocated = some [['a']] ∧
    (PATPathComponents ['a']).tempOut = none := by
  have hseg : segmentsOf ['a'] = [['a']] := by
    unfold segmentsOf
    rw [scan_nonsep [] (by decide)]
    simp [scan_nil]
  rw [PAT_ne_nil ['a'] (by decide), hseg]
  exact ⟨rfl, rfl, rfl⟩

/-- C2: for every input path, the number of entries of the returned
segment sequence equals the reported count, and every returned segment
string is non-empty. -/
theorem split_count_and_nonempty (path : List Char) :
    ((PATPathComponents path).components.getD []).length =
      (PATPathComponents path).count ∧
    ∀ s ∈ (PATPathComponents path).components.getD [], s ≠ [] := by
  by_cases h : path = []
  · subst h
    exact ⟨rfl, by simp [PATPathComponents]⟩
  · rw [PAT_ne_nil path h]
    refine ⟨rfl, ?_⟩
    intro s hs
    simp only [Option.getD_some] at hs
    exact segmentsOf_mem hs

/-- C4: splitting the empty path returns the `NULL` components
pointer, reports a count of `0`, and allocates nothing (the `temp`
out-parameter is never assigned), so nothing needs to be released. -/
theorem split_empty : PATPathComponents [] = ⟨none, 0, none, none⟩ := rfl

/-- C5: splitting `"/"` yields exactly one segment, the root marker
`"/"`; the `length > 1` guard of the trailing-root check prevents a
second root marker. -/
theorem split_single_root :
    PATPathComponents ['/'] = ⟨some [['/']], 1, none, some [['/']]⟩ := by
  have hseg : segmentsOf ['/'] = [['/']] := by
    unfold segmentsOf
    rw [scan_sep [] (by decide), scan_nil]
    simp
  rw [PAT_ne_nil ['/'] (by decide), hseg]
  rfl

/-- C9: every non-empty path yields a count of at least 1: a leading
`/` contributes a root marker, and otherwise the scan collects at
least one segment. -/
theorem split_count_pos (path : List Char) (h : path ≠ []) :
    1 ≤ (PATPathComponents path).count := by
  rw [PAT_ne_nil path h]
  have := segmentsOf_ne_nil h
  simpa [Nat.succ_le_iff, List.length_pos] using this

theorem split_count_pos_witness :
    (['a'] : List Char) ≠ [] ∧ 1 ≤ (PATPathComponents ['a']).count :=
  ⟨by decide, split_count_pos ['a'] (by decide)⟩

/-- C10: a path made solely of `/` characters with length at least 3
splits into exactly two root-marker segments: the leading `/` and the
trailing `/`, with the interior run of separators contributing
nothing. -/
theorem split_only_slashes (path : List Char)
    (hall : ∀ c ∈ path, isSep c) (hlen : 3 ≤ path.length) :
    PATPathComponents path = ⟨some [['/'], ['/']], 2, none, some [['/'], ['/']]⟩ := by
  have hne : path ≠ [] := by
    intro hcontra; subst hcontra; simp at hlen
  obtain ⟨c, cs, rfl⟩ := List.exists_cons_of_ne_nil hne
  have hseg : segmentsOf (c :: cs) = [['/'], ['/']] := by
    unfold segmentsOf
    have hc : c = '/' := isSep_iff.mp (hall c (List.mem_cons_self c cs))
    have hhd : (c :: cs).head? = some '/' := by simp [hc]
    have hscan : scanSegments (c :: cs) = [] := (scan_eq_nil_iff _).mpr hall
    have hcs : cs ≠ [] := by
      intro h2; subst h2; simp at hlen
    have hlast : (c :: cs).getLast? = some '/' := by
      rw [List.getLast?_eq_getLast (c :: cs) (by simp [hcs])]
      have hmem := List.getLast_mem (show (c :: cs) ≠ [] by simp [hcs])
      exact congrArg some (isSep_iff.mp (hall _ hmem))
    have hlt : 1 < (c :: cs).length := by omega
    rw [hhd, hscan]
    simp [hlt, hlast, hcs]
  rw [PAT_ne_nil _ hne, hseg]
  rfl

theorem split_only_slashes_witness :
    (∀ c ∈ (['/','/','/'] : List Char), isSep c) ∧
    3 ≤ (['/','/','/'] : List Char).length ∧
    PATPathComponents ['/','/','/'] = ⟨some [['/'], ['/']], 2, none, some [['/'], ['/']]⟩ :=
  ⟨by decide, by decide, split_only_slashes ['/','/','/'] (by decide) (by decide)⟩

/-- C3: for a non-empty path, the first produced segment is the root
marker `"/"` exactly when the path begins with `/`, and the trailing
root marker is appended after the scanned segments exactly when the
path has length greater than 1 and ends with `/`. -/
theorem split_root_marker_conditions (path : List Char) (h : path ≠ []) :
    ((segmentsOf path).head? = some ['/'] ↔ path.head? = some '/') ∧
    (segmentsOf path =
        ((if path.head? = some '/' then [['/']] else []) ++ scanSegments path) ++ [['/']]
      ↔ 1 < path.length ∧ path.getLast? = some '/') := by
  obtain ⟨c, cs, rfl⟩ := List.exists_cons_of_ne_nil h
  constructor
  · by_cases hc : isSep c
    · have hc' : c = '/' := isSep_iff.mp hc
      subst hc'
      unfold segmentsOf
      simp
    · have hc' : c ≠ '/' := fun h2 => hc (isSep_iff.mpr h2)
      unfold segmentsOf
      rw [scan_nonsep cs hc]
      simp [hc']
  · by_cases ht : 1 < (c :: cs).length ∧ (c :: cs).getLast? = some '/'
    · refine ⟨fun _ => ht, fun _ => ?_⟩
      unfold segmentsOf
      rw [if_pos ht, List.append_assoc]
    · refine ⟨fun heq => ?_, fun h2 => absurd h2 ht⟩
      exfalso
      unfold segmentsOf at heq
      rw [if_neg ht] at heq
      have := congrArg List.length heq
      simp at this

theorem split_root_marker_conditions_witness :
    (['/','a'] : List Char) ≠ [] ∧
    (((segmentsOf ['/','a']).head? = some ['/'] ↔ (['/','a'] : List Char).head? = some '/') ∧
    (segmentsOf ['/','a'] =
        ((if (['/','a'] : List Char).head? = some '/' then [['/']] else [])
          ++ scanSegments ['/','a']) ++ [['/']]
      ↔ 1 < (['/','a'] : List Char).length ∧ (['/','a'] : List Char).getLast? = some '/')) :=
  ⟨by decide, split_root_marker_conditions ['/','a'] (by decide)⟩

/-- C6: a path with neither a leading nor a trailing `/` splits into
exactly the maximal runs of non-`/` characters in order, with no root
markers and no empty segments; in particular `"a/b/c"` gives
`["a","b","c"]` and `"a//b"` gives `["a","b"]`. -/
theorem split_interior_runs (path : List Char)
    (h1 : path.head? ≠ some '/') (h2 : path.getLast? ≠ some '/') :
    segmentsOf path = maximalRuns path ∧
    PATPathComponents ['a','/','b','/','c'] =
      ⟨some [['a'],['b'],['c']], 3, none, some [['a'],['b'],['c']]⟩ ∧
    PATPathComponents ['a','/','/','b'] =
      ⟨some [['a'],['b']], 2, none, some [['a'],['b']]⟩ := by
  refine ⟨?_, ?_, ?_⟩
  · unfold segmentsOf
    rw [if_neg h1, scan_eq_maximalRuns]
    have ht : ¬ (1 < path.length ∧ path.getLast? = some '/') := fun hx => h2 hx.2
    rw [if_neg ht]
    simp
  · simp [PATPathComponents, segmentsOf, scanSegments, isSep, List.takeWhile,
      List.dropWhile, List.range_succ]
  · simp [PATPathComponents, segmentsOf, scanSegments, isSep, List.takeWhile,
      List.dropWhile, List.range_succ]

theorem split_interior_runs_witness :
    (['a','/','b'] : List Char).head? ≠ some '/' ∧
    (['a','/','b'] : List Char).getLast? ≠ some '/' ∧
    (segmentsOf ['a','/','b'] = maximalRuns ['a','/','b'] ∧
    PATPathComponents ['a','/','b','/','c'] =
      ⟨some [['a'],['b'],['c']], 3, none, some [['a'],['b'],['c']]⟩ ∧
    PATPathComponents ['a','/','/','b'] =
      ⟨some [['a'],['b']], 2, none, some [['a'],['b']]⟩) :=
  ⟨by decide, by decide, split_interior_runs ['a','/','b'] (by decide) (by decide)⟩

/-! ### Termination of the scanning loop -/

/-- Fuel-indexed version of the outer `while (curPos < endPos)` loop
of `PATPathComponents` (lines 32–46): one unit of fuel is spent per
iteration of the outer loop; `none` means the loop did not finish
within the given number of iterations.  Each iteration first skips the
run of separators (the inner loop of lines 33–35), breaks if the end
was reached (lines 36–38), and otherwise collects the maximal
non-separator run (lines 39–45). -/
def scanLoop : Nat → List Char → Option (List (List Char))
  | 0, _ => none
  | fuel + 1, l =>
    if l = [] then some []
    else
      let l2 := l.dropWhile isSep
      if l2 = [] then some []
      else
        match scanLoop fuel (l2.dropWhile (fun x => !(isSep x))) with
        | none => none
        | some rest => some (l2.takeWhile (fun x => !(isSep x)) :: rest)

theorem scan_dropWhile_sep (l : List Char) :
    scanSegments (l.dropWhile isSep) = scanSegments l := by
  induction l with
  | nil => simp
  | cons c cs ih =>
    by_cases hc : isSep c
    · rw [List.dropWhile_cons]
      simp only [hc, ite_true]
      rw [ih, scan_sep cs hc]
    · rw [List.dropWhile_cons]
      simp only [hc, Bool.false_eq_true, ite_false]

theorem scanLoop_complete (fuel : Nat) :
    ∀ l : List Char, l.length < fuel → scanLoop fuel l = some (scanSegments l) := by
  induction fuel with
  | zero => exact fun l hl => absurd hl (Nat.not_lt_zero _)
  | succ fuel ih =>
    intro l hl
    simp only [scanLoop]
    by_cases hnil : l = []
    · subst hnil; simp [scan_nil]
    · rw [if_neg hnil]
      rcases hdr : l.dropWhile isSep with _ | ⟨d, rest2⟩
      · simp only [ite_true]
        have hz : scanSegments l = [] := by
          rw [← scan_dropWhile_sep l, hdr, scan_nil]
        rw [hz]
      · rw [if_neg (by simp)]
        have hdnon : ¬ isSep d := by
          have := List.head?_dropWhile_not isSep l
          rw [hdr] at this
          simpa using this
        have hrw : (d :: rest2).dropWhile (fun x => !(isSep x)) =
            rest2.dropWhile (fun x => !(isSep x)) := by
          rw [List.dropWhile_cons]
          simp [hdnon]
        have hlen : (rest2.dropWhile (fun x => !(isSep x))).length < fuel := by
          have hsub : (rest2.dropWhile (fun x => !(isSep x))).length ≤ rest2.length :=
            (List.dropWhile_sublist _).length_le
          have hsub2 : (d :: rest2).length ≤ l.length := by
            rw [← hdr]; exact (List.dropWhile_sublist _).length_le
          simp only [List.length_cons] at hsub2
          omega
        rw [hrw, ih _ hlen]
        have hscan : scanSegments l = scanSegments (d :: rest2) := by
          rw [← scan_dropWhile_sep l, hdr]
        rw [hscan, scan_nonsep rest2 hdnon]
        rw [List.takeWhile_cons]
        simp [hdnon]

/-- C8: the scanning loop of `PATPathComponents` terminates on every
input within a number of outer-loop iterations linear in the length of
the path (at most `length + 1`), producing the scanned segments; the
whole operation is thus a total function with no failure output. -/
theorem split_terminates (path : List Char) :
    scanLoop (path.length + 1) path = some (scanSegments path) :=
  scanLoop_complete (path.length + 1) path (Nat.lt_succ_self _)

/-! ### Round-trip: joining the segments recovers the collapsed path -/

/-- The join described by the spec's round-trip property: concatenate
the segments in order, inserting a single `/` between adjacent
segments when neither is the root marker, and inserting nothing where
one of them is the root marker. -/
def joinSegs : List (List Char) → List Char
  | [] => []
  | [s] => s
  | s :: t :: rest =>
    s ++ (if s = ['/'] ∨ t = ['/'] then [] else ['/']) ++ joinSegs (t :: rest)

/-- Collapse every run of consecutive `/` characters to a single `/`
(the canonicalization modulo which the round-trip holds). -/
def collapseSlashes : List Char → List Char
  | [] => []
  | [c] => [c]
  | c :: d :: cs =>
    if isSep c && isSep d then collapseSlashes (d :: cs)
    else c :: collapseSlashes (d :: cs)

/-- Interleave a single `/` between consecutive lists. -/
def interSlash : List (List Char) → List Char
  | [] => []
  | [s] => s
  | s :: t :: rest => s ++ '/' :: interSlash (t :: rest)

/-- Canonical shape of a collapsed path, phrased through the scanned
segments. -/
def normalForm (p : List Char) : List Char :=
  if scanSegments p = [] then (if p = [] then [] else ['/'])
  else
    (if p.head? = some '/' then ['/'] else [])
      ++ interSlash (scanSegments p)
      ++ (if p.getLast? = some '/' then ['/'] else [])

theorem interSlash_cons_head (c : Char) (s : List Char) (L : List (List Char)) :
    interSlash ((c :: s) :: L) = c :: interSlash (s :: L) := by
  cases L <;> rfl

theorem interSlash_cons (s : List Char) {L : List (List Char)} (h : L ≠ []) :
    interSlash (s :: L) = s ++ '/' :: interSlash L := by
  cases L with
  | nil => exact absurd rfl h
  | cons t rest => rfl

theorem scan_ne_root {p s : List Char} (hs : s ∈ scanSegments p) : s ≠ ['/'] := by
  intro hcontra
  subst hcontra
  exact (scan_mem hs).2 '/' (by simp) (by simp [isSep])

theorem allSep_getLast {l : List Char} (h : l ≠ []) (hall : ∀ c ∈ l, isSep c) :
    l.getLast? = some '/' := by
  rw [List.getLast?_eq_getLast l h]
  exact congrArg some (isSep_iff.mp (hall _ (List.getLast_mem h)))

theorem collapse_allSep {l : List Char} (h : l ≠ []) (hall : ∀ c ∈ l, isSep c) :
    collapseSlashes l = ['/'] := by
  induction l using collapseSlashes.induct with
  | case1 => exact absurd rfl h
  | case2 c =>
    have : c = '/' := isSep_iff.mp (hall c (by simp))
    simp [collapseSlashes, this]
  | case3 c d cs hcd ih =>
    rw [collapseSlashes]
    simp only [hcd, ite_true]
    exact ih (by simp) (fun x hx => hall x (List.mem_cons_of_mem c hx))
  | case4 c d cs hcd ih =>
    exact absurd (by
      simp only [Bool.and_eq_true]
      exact ⟨hall c (by simp), hall d (by simp)⟩) hcd

theorem collapse_cons (c : Char) (cs : List Char) :
    ∃ t, collapseSlashes (c :: cs) = c :: t := by
  induction cs generalizing c with
  | nil => exact ⟨[], rfl⟩
  | cons d cs ih =>
    by_cases hcd : (isSep c && isSep d) = true
    · rw [collapseSlashes]
      simp only [hcd, ite_true]
      have hc : c = '/' := isSep_iff.mp ((Bool.and_eq_true _ _).mp hcd).1
      have hd : d = '/' := isSep_iff.mp ((Bool.and_eq_true _ _).mp hcd).2
      obtain ⟨t, ht⟩ := ih d
      refine ⟨t, ?_⟩
      rw [ht, hc, hd]
    · rw [collapseSlashes]
      simp only [hcd, Bool.false_eq_true, ite_false]
      exact ⟨collapseSlashes (d :: cs), rfl⟩

theorem collapse_idem (l : List Char) :
    collapseSlashes (collapseSlashes l) = collapseSlashes l := by
  induction l using collapseSlashes.induct with
  | case1 => rfl
  | case2 c => rfl
  | case3 c d cs hcd ih =>
    rw [collapseSlashes]
    simp only [hcd, ite_true]
    exact ih
  | case4 c d cs hcd ih =>
    rw [collapseSlashes]
    simp only [hcd, Bool.false_eq_true, ite_false]
    obtain ⟨t, ht⟩ := collapse_cons d cs
    rw [ht]
    rw [collapseSlashes]
    simp only [hcd, Bool.false_eq_true, ite_false]
    rw [← ht, ih, ht]

theorem normalForm_ne {p : List Char} (hs : scanSegments p ≠ []) :
    normalForm p =
      (if p.head? = some '/' then ['/'] else [])
        ++ interSlash (scanSegments p)
        ++ (if p.getLast? = some '/' then ['/'] else []) := by
  unfold normalForm
  rw [if_neg hs]

theorem collapse_eq_normal (p : List Char) :
    collapseSlashes p = normalForm p := by
  induction p using collapseSlashes.induct with
  | case1 => simp [normalForm, scan_nil, collapseSlashes]
  | case2 c =>
    by_cases hc : isSep c
    · have hc' : c = '/' := isSep_iff.mp hc
      subst hc'
      have hscan : scanSegments ['/'] = [] := by
        rw [scan_sep [] (by decide), scan_nil]
      simp [normalForm, hscan, collapseSlashes]
    · have hscan : scanSegments [c] = [[c]] := by
        rw [scan_nonsep [] hc]
        simp [scan_nil]
      have hc' : c ≠ '/' := fun h => hc (isSep_iff.mpr h)
      simp [normalForm, hscan, collapseSlashes, interSlash, hc']
  | case3 c d cs hcd ih =>
    have hcsep : isSep c := ((Bool.and_eq_true _ _).mp hcd).1
    have hdsep : isSep d := ((Bool.and_eq_true _ _).mp hcd).2
    have hc : c = '/' := isSep_iff.mp hcsep
    have hd : d = '/' := isSep_iff.mp hdsep
    rw [collapseSlashes]
    simp only [hcd, ite_true]
    rw [ih]
    unfold normalForm
    have hscan : scanSegments (c :: d :: cs) = scanSegments (d :: cs) :=
      scan_sep _ hcsep
    rw [hscan]
    by_cases hs : scanSegments (d :: cs) = []
    · simp [hs]
    · simp [hs, hc, hd, List.getLast?_cons_cons]
  | case4 c d cs hcd ih =>
    rw [collapseSlashes]
    simp only [hcd, Bool.false_eq_true, ite_false]
    rw [ih]
    by_cases hc : isSep c
    · -- leading separator followed by a non-separator
      have hdns : ¬ isSep d := by
        intro hd; exact hcd (by simp [hc, hd])
      have hc' : c = '/' := isSep_iff.mp hc
      have hd' : d ≠ '/' := fun h => hdns (isSep_iff.mpr h)
      have hscan : scanSegments (c :: d :: cs) = scanSegments (d :: cs) :=
        scan_sep _ hc
      have hne : scanSegments (d :: cs) ≠ [] := by
        rw [scan_nonsep cs hdns]; simp
      unfold normalForm
      rw [hscan]
      simp [hne, hc', hd', List.getLast?_cons_cons]
    · have hc' : c ≠ '/' := fun h => hc (isSep_iff.mpr h)
      by_cases hd : isSep d
      · -- non-separator, then a separator
        have hd' : d = '/' := isSep_iff.mp hd
        subst hd'
        have hscanc : scanSegments (c :: '/' :: cs) = [c] :: scanSegments cs := by
          rw [scan_nonsep ('/' :: cs) hc]
          rw [List.takeWhile_cons, List.dropWhile_cons]
          simp only [hd, Bool.not_true, Bool.false_eq_true, ite_false]
          rw [scan_sep cs hd]
        have hscand : scanSegments ('/' :: cs) = scanSegments cs := scan_sep cs hd
        by_cases hs : scanSegments cs = []
        · have hall : ∀ x ∈ cs, isSep x := (scan_eq_nil_iff cs).mp hs
          have halld : ∀ x ∈ '/' :: cs, isSep x := by
            intro x hx
            rcases List.mem_cons.mp hx with h | h
            · subst h; exact hd
            · exact hall x h
          have hlastc : (c :: '/' :: cs).getLast? = some '/' := by
            rw [List.getLast?_cons_cons]
            exact allSep_getLast (by simp) halld
          have h1 : scanSegments ('/' :: cs) = [] := by rw [hscand]; exact hs
          have hnec : scanSegments (c :: '/' :: cs) ≠ [] := by rw [hscanc]; simp
          have hLHS : normalForm ('/' :: cs) = ['/'] := by
            unfold normalForm
            rw [h1]
            simp
          rw [hLHS, normalForm_ne hnec, hscanc, hs]
          simp [hc', hlastc, interSlash]
        · have hnec : scanSegments (c :: '/' :: cs) ≠ [] := by rw [hscanc]; simp
          have hned : scanSegments ('/' :: cs) ≠ [] := by rw [hscand]; exact hs
          rw [normalForm_ne hned, normalForm_ne hnec, hscanc, hscand]
          rw [interSlash_cons [c] hs]
          simp [hc', List.getLast?_cons_cons]
      · -- two consecutive non-separators
        have hd' : d ≠ '/' := fun h => hd (isSep_iff.mpr h)
        have hscanc : scanSegments (c :: d :: cs) =
            (c :: d :: cs.takeWhile (fun x => !(isSep x))) ::
              scanSegments (cs.dropWhile (fun x => !(isSep x))) := by
          rw [scan_nonsep (d :: cs) hc]
          rw [List.takeWhile_cons, List.dropWhile_cons]
          simp only [hd, Bool.not_false, ite_true, Bool.false_eq_true]
        have hscand : scanSegments (d :: cs) =
            (d :: cs.takeWhile (fun x => !(isSep x))) ::
              scanSegments (cs.dropWhile (fun x => !(isSep x))) :=
          scan_nonsep cs hd
        have hnec : scanSegments (c :: d :: cs) ≠ [] := by rw [hscanc]; simp
        have hned : scanSegments (d :: cs) ≠ [] := by rw [hscand]; simp
        rw [normalForm_ne hned, normalForm_ne hnec, hscanc, hscand,
          interSlash_cons_head c (d :: cs.takeWhile (fun x => !(isSep x)))
            (scanSegments (cs.dropWhile (fun x => !(isSep x))))]
        simp [hc', hd', List.getLast?_cons_cons]

theorem joinSegs_nonroot {L : List (List Char)} (hnr : ∀ s ∈ L, s ≠ ['/']) :
    joinSegs L = interSlash L := by
  induction L with
  | nil => rfl
  | cons s L ih =>
    cases L with
    | nil => rfl
    | cons t rest =>
      have h1 : joinSegs (s :: t :: rest) =
          s ++ (if s = ['/'] ∨ t = ['/'] then [] else ['/']) ++ joinSegs (t :: rest) := rfl
      have h2 : interSlash (s :: t :: rest) = s ++ '/' :: interSlash (t :: rest) := rfl
      rw [h1, h2, ih (fun x hx => hnr x (List.mem_cons_of_mem s hx))]
      rw [if_neg (by
        rintro (h | h)
        · exact hnr s (by simp) h
        · exact hnr t (by simp) h)]
      simp

theorem joinSegs_root_head (L : List (List Char)) (h : L ≠ []) :
    joinSegs (['/'] :: L) = '/' :: joinSegs L := by
  cases L with
  | nil => exact absurd rfl h
  | cons t rest =>
    have h1 : joinSegs (['/'] :: t :: rest) =
        ['/'] ++ (if (['/'] : List Char) = ['/'] ∨ t = ['/'] then [] else ['/'])
          ++ joinSegs (t :: rest) := rfl
    rw [h1, if_pos (Or.inl rfl)]
    simp

theorem joinSegs_root_last {L : List (List Char)} (h : L ≠ [])
    (hnr : ∀ s ∈ L, s ≠ ['/']) :
    joinSegs (L ++ [['/']]) = joinSegs L ++ ['/'] := by
  induction L with
  | nil => exact absurd rfl h
  | cons s L ih =>
    cases L with
    | nil =>
      have h1 : joinSegs [s, ['/']] =
          s ++ (if s = ['/'] ∨ (['/'] : List Char) = ['/'] then [] else ['/'])
            ++ joinSegs [['/']] := rfl
      rw [List.singleton_append, h1, if_pos (Or.inr rfl)]
      simp [joinSegs]
    | cons t rest =>
      have h1 : joinSegs ((s :: t :: rest) ++ [['/']]) =
          s ++ (if s = ['/'] ∨ t = ['/'] then [] else ['/'])
            ++ joinSegs ((t :: rest) ++ [['/']]) := rfl
      have h2 : joinSegs (s :: t :: rest) =
          s ++ (if s = ['/'] ∨ t = ['/'] then [] else ['/']) ++ joinSegs (t :: rest) := rfl
      rw [h1, ih (by simp) (fun x hx => hnr x (List.mem_cons_of_mem s hx)), h2]
      simp

theorem length_gt_one {p : List Char} (hscan : scanSegments p ≠ [])
    (hl : p.getLast? = some '/') : 1 < p.length := by
  rcases p with _ | ⟨c, cs⟩
  · rw [scan_nil] at hscan
    exact absurd rfl hscan
  · rcases cs with _ | ⟨d, cs2⟩
    · simp at hl
      subst hl
      rw [scan_sep [] (by decide), scan_nil] at hscan
      exact absurd rfl hscan
    · simp [List.length_cons]

theorem join_segmentsOf {p : List Char} (hscan : scanSegments p ≠ []) :
    joinSegs (segmentsOf p) = normalForm p := by
  have hnr : ∀ s ∈ scanSegments p, s ≠ ['/'] := fun s hs => scan_ne_root hs
  rw [normalForm_ne hscan]
  unfold segmentsOf
  by_cases hh : p.head? = some '/' <;> by_cases hl : p.getLast? = some '/'
  · rw [if_pos hh, if_pos ⟨length_gt_one hscan hl, hl⟩, if_pos hh, if_pos hl]
    rw [List.singleton_append, List.cons_append,
      joinSegs_root_head (scanSegments p ++ [['/']])
        (by simp [hscan, List.append_eq_nil]),
      joinSegs_root_last hscan hnr, joinSegs_nonroot hnr]
    simp
  · rw [if_pos hh, if_neg (fun hx => hl hx.2), if_pos hh, if_neg hl]
    rw [List.append_nil, List.singleton_append,
      joinSegs_root_head (scanSegments p) hscan, joinSegs_nonroot hnr]
    simp
  · rw [if_neg hh, if_pos ⟨length_gt_one hscan hl, hl⟩, if_neg hh, if_pos hl]
    rw [List.nil_append, joinSegs_root_last hscan hnr, joinSegs_nonroot hnr]
    simp
  · rw [if_neg hh, if_neg (fun hx => hl hx.2), if_neg hh, if_neg hl]
    rw [List.nil_append, List.append_nil, joinSegs_nonroot hnr]
    simp

/-- C7: for every input path, joining the returned segments — a single
`/` between adjacent non-root segments, nothing where a segment is the
root marker — reconstructs the input up to collapsing repeated
separators. -/
theorem split_roundtrip (path : List Char) :
    collapseSlashes (joinSegs (segmentsOf path)) = collapseSlashes path := by
  by_cases hp : path = []
  · subst hp
    have h1 : segmentsOf [] = [] := by
      unfold segmentsOf
      rw [scan_nil]
      simp
    rw [h1]
    rfl
  · by_cases hscan : scanSegments path = []
    · have hall : ∀ c ∈ path, isSep c := (scan_eq_nil_iff path).mp hscan
      obtain ⟨c, cs, rfl⟩ := List.exists_cons_of_ne_nil hp
      have hc : c = '/' := isSep_iff.mp (hall c (by simp))
      subst hc
      rcases cs with _ | ⟨d, cs2⟩
      · have h1 : segmentsOf ['/'] = [['/']] := by
          unfold segmentsOf
          rw [scan_sep [] (by decide), scan_nil]
          simp
        rw [h1]
        rfl
      · have hlast : ('/' :: d :: cs2).getLast? = some '/' :=
          allSep_getLast (by simp) hall
        have h1 : segmentsOf ('/' :: d :: cs2) = [['/'], ['/']] := by
          unfold segmentsOf
          rw [hscan]
          simp [hlast]
        rw [h1]
        have h2 : joinSegs [['/'], ['/']] = ['/', '/'] := by
          simp [joinSegs]
        have h3 : collapseSlashes ['/', '/'] = ['/'] := by
          simp [collapseSlashes, isSep]
        rw [h2, h3, collapse_allSep (by simp) hall]
    · rw [join_segmentsOf hscan, ← collapse_eq_normal, collapse_idem]

end PathKit
